import Mathlib

/-!
# SBOLExplorer — verification of the SPARQL query, clustering and
sequence-search layers

Shallow embedding of the Python modules `query.py`, `cluster.py`,
`sequencesearch.py` and `explorer.py` of the SBOLExplorer repository,
together with proofs about the embedded functions.

Python dicts are modelled as association lists kept in insertion order
(assignment to an existing key updates the value in place, a new key is
appended at the end); Python sets of strings are modelled as duplicate-free
lists where only membership matters.
-/

namespace SBOL

/-- Python dict lookup `d[k]` (as an `Option`): value of the first (and, for
a real dict, only) entry with key `k`. -/
def dictLookup {β : Type} (d : List (String × β)) (k : String) : Option β :=
  match d with
  | [] => none
  | (k₁, v) :: rest => if k₁ = k then some v else dictLookup rest k

/-- Python dict assignment `d[k] = v`: update the entry with key `k` in
place if present, otherwise append the new entry at the end. -/
def dictSet {β : Type} (d : List (String × β)) (k : String) (v : β) :
    List (String × β) :=
  match d with
  | [] => [(k, v)]
  | (k₁, v₁) :: rest =>
    if k₁ = k then (k₁, v) :: rest else (k₁, v₁) :: dictSet rest k v

/-- The keys of a dict, in insertion order. -/
def dictKeys {β : Type} (d : List (String × β)) : List String :=
  d.map Prod.fst

/-- Python `s.add(x)` on a set modelled as a duplicate-free list. -/
def setAdd (s : List String) (x : String) : List String :=
  if x ∈ s then s else s ++ [x]

/-- Python `s.difference({x})`. -/
def setDiff (s : List String) (x : String) : List String :=
  s.filter (fun y => y ≠ x)

namespace Query

/-- A SPARQL result row (`query.py`, `send_query`): a Python dict from bound
variable name to string value. -/
abbrev Row := List (String × String)

/-- `json.dumps(result, sort_keys=True)` followed by `json.loads`
(`query.py`, `deduplicate_results`): the canonical form of a row is its
key-sorted association list.  JSON serialization of a string-keyed,
string-valued object with sorted keys is injective, so equality of the
canonical lists models equality of the dumped strings exactly. -/
def canon (r : Row) : Row :=
  r.mergeSort (fun a b => decide (a.1 ≤ b.1))

/-- `query.py`, `deduplicate_results`: every row is dumped in canonical form
into a Python set and the set members are parsed back; only set membership
is observable, so the set is modelled as the duplicate-free list of
canonical rows. -/
def deduplicate_results (results : List Row) : List Row :=
  (results.map canon).dedup

theorem canon_perm (r : Row) : (canon r).Perm r :=
  List.mergeSort_perm r _

theorem canon_sorted (r : Row) :
    (canon r).Pairwise (fun a b => a.1 ≤ b.1) := by
  have h := @List.sorted_mergeSort (String × String)
    (fun a b => decide (a.1 ≤ b.1))
    (fun a b c h₁ h₂ => by
      simp only [decide_eq_true_eq] at h₁ h₂ ⊢
      exact le_trans h₁ h₂)
    (fun a b => by
      simp only [Bool.or_eq_true, decide_eq_true_eq]
      exact le_total a.1 b.1) r
  exact h.imp (fun hab => by simpa using hab)

theorem canon_idem (r : Row) : canon (canon r) = canon r := by
  apply List.mergeSort_of_sorted
  exact (canon_sorted r).imp (fun h => by simpa using h)

/-- Rows that are permutations of each other with duplicate-free keys (as
any two Python dicts holding the same key/value pairs are) have the same
canonical form. -/
theorem canon_eq_of_perm (r₁ r₂ : Row) (hperm : r₁.Perm r₂)
    (hkeys : (r₁.map Prod.fst).Nodup) : canon r₁ = canon r₂ := by
  have hkeys₂ : (r₂.map Prod.fst).Nodup := (hperm.map Prod.fst).nodup_iff.mp hkeys
  have sortedLt : ∀ r : Row, (r.map Prod.fst).Nodup →
      (canon r).Pairwise (fun a b => a.1 < b.1) := by
    intro r hr
    have hub : (canon r).Pairwise (fun a b : String × String => a.1 ≠ b.1) := by
      have : ((canon r).map Prod.fst).Nodup :=
        ((canon_perm r).map Prod.fst).nodup_iff.mpr hr
      exact (List.pairwise_map).mp this
    exact ((canon_sorted r).and hub).imp
      (fun hab => lt_of_le_of_ne hab.1 hab.2)
  haveI : IsAntisymm (String × String) (fun a b => a.1 < b.1) :=
    ⟨fun a b h₁ h₂ => absurd (h₁.trans h₂) (lt_irrefl _)⟩
  exact List.eq_of_perm_of_sorted
    ((canon_perm r₁).trans (hperm.trans (canon_perm r₂).symm))
    (sortedLt r₁ hkeys) (sortedLt r₂ hkeys₂)

/-- C2: deduplication keeps exactly one representative per distinct row
(rows differing only in key insertion order coincide after
canonicalization), and deduplicating twice changes nothing. -/
theorem deduplicate_results_spec (rows : List Row) :
    (deduplicate_results rows).Nodup
    ∧ (∀ r ∈ rows, canon r ∈ deduplicate_results rows)
    ∧ (∀ x ∈ deduplicate_results rows, ∃ r ∈ rows, canon r = x)
    ∧ (∀ r₁ r₂ : Row, r₁.Perm r₂ → (r₁.map Prod.fst).Nodup →
        canon r₁ = canon r₂)
    ∧ deduplicate_results (deduplicate_results rows) = deduplicate_results rows := by
  refine ⟨List.nodup_dedup _, ?_, ?_, canon_eq_of_perm, ?_⟩
  · intro r hr
    exact List.mem_dedup.mpr (List.mem_map_of_mem canon hr)
  · intro x hx
    rcases List.mem_map.mp (List.mem_dedup.mp hx) with ⟨r, hr, hrx⟩
    exact ⟨r, hr, hrx⟩
  · unfold deduplicate_results
    have hmap : (( (rows.map canon).dedup).map canon) = (rows.map canon).dedup := by
      have : ∀ x ∈ (rows.map canon).dedup, canon x = x := by
        intro x hx
        rcases List.mem_map.mp (List.mem_dedup.mp hx) with ⟨r, _, hrx⟩
        rw [← hrx]
        exact canon_idem r
      calc ((rows.map canon).dedup).map canon
          = ((rows.map canon).dedup).map id := List.map_congr_left this
        _ = (rows.map canon).dedup := List.map_id _
    rw [hmap]
    exact (List.nodup_dedup _).dedup

/-- `query.py`, `page_query` (the `while True` loop): `store` abstracts
`send_query` as a function from the OFFSET value to the rows the endpoint
returns for that page; the LIMIT is passed in as `limit`.  Returns the list
of offsets at which page requests were issued together with the
concatenation of all rows received.  `fuel` bounds the number of
iterations so the model is total; all theorems supply enough fuel. -/
def page_query_loop (store : Nat → List Row) (limit : Nat) :
    Nat → Nat → List Nat × List Row
  | _, 0 => ([], [])
  | offset, fuel + 1 =>
    let new_results := store offset
    if new_results.length = limit then
      let rest := page_query_loop store limit (offset + limit) fuel
      (offset :: rest.1, new_results ++ rest.2)
    else
      ([offset], new_results)

/-- `query.py`, `page_query`: offset starts at 0 and the limit is fixed at
10000. -/
def page_query (store : Nat → List Row) (fuel : Nat) : List Nat × List Row :=
  page_query_loop store 10000 0 fuel

theorem page_query_loop_spec (store : Nat → List Row) (limit : Nat) :
    ∀ (k offset fuel : Nat), k < fuel →
    (∀ j, j < k → (store (offset + j * limit)).length = limit) →
    (store (offset + k * limit)).length ≠ limit →
    page_query_loop store limit offset fuel =
      ((List.range (k + 1)).map (fun j => offset + j * limit),
       ((List.range (k + 1)).map (fun j => store (offset + j * limit))).flatten) := by
  intro k
  induction k with
  | zero =>
    intro offset fuel hfuel _ hlast
    match fuel, hfuel with
    | f + 1, _ =>
      simp only [Nat.zero_mul, Nat.add_zero] at hlast
      simp [page_query_loop, hlast, List.range_succ]
  | succ k ih =>
    intro offset fuel hfuel hfull hlast
    match fuel, hfuel with
    | f + 1, hfuel =>
      have h0 : (store offset).length = limit := by
        have := hfull 0 (Nat.succ_pos k)
        simpa using this
      have hshift : ∀ j, offset + limit + j * limit = offset + (j + 1) * limit := by
        intro j; ring
      have hfull₂ : ∀ j, j < k → (store (offset + limit + j * limit)).length = limit := by
        intro j hj
        rw [hshift j]
        exact hfull (j + 1) (Nat.succ_lt_succ hj)
      have hlast₂ : (store (offset + limit + k * limit)).length ≠ limit := by
        rw [hshift k]
        exact hlast
      have hrec := ih (offset + limit) f (Nat.lt_of_succ_lt_succ hfuel) hfull₂ hlast₂
      have e1 : List.map (fun j => offset + j * limit) (List.range (k + 1 + 1)) =
          offset :: List.map (fun j => offset + limit + j * limit) (List.range (k + 1)) := by
        rw [List.range_succ_eq_map, List.map_cons, List.map_map]
        simp only [Nat.zero_mul, Nat.add_zero]
        congr 1
        apply List.map_congr_left
        intro j _
        simp only [Function.comp_apply, Nat.succ_eq_add_one]
        ring
      have e2 : List.map (fun j => store (offset + j * limit)) (List.range (k + 1 + 1)) =
          store offset ::
            List.map (fun j => store (offset + limit + j * limit)) (List.range (k + 1)) := by
        rw [List.range_succ_eq_map, List.map_cons, List.map_map]
        simp only [Nat.zero_mul, Nat.add_zero]
        congr 1
        apply List.map_congr_left
        intro j _
        simp only [Function.comp_apply, Nat.succ_eq_add_one]
        congr 1
        ring
      simp only [page_query_loop]
      rw [if_pos h0, hrec]
      simp [e1, e2, List.flatten_cons]

/-- C1: the pagination loop requests pages at offsets 0, 10000, 20000, …
(LIMIT fixed at 10000), stops exactly at the first page holding fewer rows
than the limit, and returns the concatenation of all pages in order; with
full pages at offsets `0, …, (k-1)*10000` and a short page at `k*10000` it
issues exactly `k + 1` page requests. -/
theorem page_query_pagination (store : Nat → List Row) (k fuel : Nat)
    (hfull : ∀ j, j < k → (store (j * 10000)).length = 10000)
    (hlast : (store (k * 10000)).length < 10000)
    (hfuel : k < fuel) :
    (page_query store fuel).1 = (List.range (k + 1)).map (fun j => j * 10000)
    ∧ (page_query store fuel).2 =
        ((List.range (k + 1)).map (fun j => store (j * 10000))).flatten
    ∧ (page_query store fuel).1.length = k + 1 := by
  have h := page_query_loop_spec store 10000 k 0 fuel hfuel
    (by intro j hj; simpa using hfull j hj)
    (by simpa using Nat.ne_of_lt hlast)
  unfold page_query
  rw [h]
  refine ⟨by simp, by simp, by simp⟩

/-- Witness for C1: a store with exactly 10000 rows at offsets 0 and 10000
and no rows at offset 20000 leads to exactly three page requests, at
offsets 0, 10000 and 20000. -/
theorem page_query_pagination_witness :
    (page_query
      (fun o => if o < 20000 then List.replicate 10000 [("s", "v")] else [])
      3).1 = [0, 10000, 20000] := by
  have h := page_query_pagination
    (fun o => if o < 20000 then List.replicate 10000 [("s", "v")] else [])
    2 3
    (by
      intro j hj
      have hj2 : j * 10000 < 20000 := by omega
      show (if j * 10000 < 20000 then
          List.replicate 10000 [("s", "v")] else []).length = 10000
      rw [if_pos hj2, List.length_replicate])
    (by
      show (if 2 * 10000 < 20000 then
          List.replicate 10000 [("s", "v")] else []).length < 10000
      norm_num)
    (by omega)
  rw [h.1]
  decide

/-- The part of `utils.get_config()` that `query_sparql` reads. -/
structure Config where
  sparql_endpoint : String
  distributed_search : Bool

/-- `query.py`, `query_sparql`: the list of endpoints queried — the primary
endpoint from the configuration and, when distributed search is enabled,
every instance URL from the world-of-registries directory with
`/sparql?` appended. -/
def endpointsOf (cfg : Config) (instances : List String) : List String :=
  cfg.sparql_endpoint ::
    (if cfg.distributed_search then instances.map (fun u => u ++ "/sparql?") else [])

/-- `query.py`, `query_sparql`, the `for endpoint in endpoints` loop:
`fetch` abstracts `page_query` against one endpoint (`.error` for a raised
exception — network failure or non-2xx status).  Any exception is caught
and re-raised as `Endpoint not responding`, aborting the whole call with
the rows gathered so far discarded. -/
def query_sparql_loop (fetch : String → Except String (List Row)) :
    List String → Except String (List Row)
  | [] => .ok []
  | e :: rest =>
    match fetch e with
    | .error _ => .error "Endpoint not responding"
    | .ok rows =>
      match query_sparql_loop fetch rest with
      | .error msg => .error msg
      | .ok more => .ok (rows ++ more)

/-- `query.py`, `query_sparql`: loop over all endpoints, then deduplicate
the concatenated rows. -/
def query_sparql (cfg : Config) (instances : List String)
    (fetch : String → Except String (List Row)) : Except String (List Row) :=
  (query_sparql_loop fetch (endpointsOf cfg instances)).map deduplicate_results

theorem query_sparql_loop_error (fetch : String → Except String (List Row)) :
    ∀ (l : List String) (e : String), e ∈ l → (∃ msg, fetch e = .error msg) →
    query_sparql_loop fetch l = .error "Endpoint not responding" := by
  intro l
  induction l with
  | nil => intro e he _; cases he
  | cons hd tl ih =>
    intro e he ⟨msg, hmsg⟩
    rcases List.mem_cons.mp he with rfl | htl
    · simp [query_sparql_loop, hmsg]
    · unfold query_sparql_loop
      cases hhd : fetch hd with
      | error _ => rfl
      | ok rows => rw [ih e htl ⟨msg, hmsg⟩]

/-- C3: with federation enabled, if the page query against any single
endpoint fails, `query_sparql` fails as a whole with
`Endpoint not responding`; no rows from the other endpoints are
returned. -/
theorem query_sparql_fail_fast (cfg : Config) (instances : List String)
    (fetch : String → Except String (List Row)) (e msg : String)
    (_hfed : cfg.distributed_search = true)
    (he : e ∈ endpointsOf cfg instances)
    (hf : fetch e = .error msg) :
    query_sparql cfg instances fetch = .error "Endpoint not responding" := by
  unfold query_sparql
  rw [query_sparql_loop_error fetch (endpointsOf cfg instances) e he ⟨msg, hf⟩]
  rfl

/-- Witness for C3: two peers; the primary and the first peer answer, the
second peer returns a failure — the whole call errors out with no rows. -/
theorem query_sparql_fail_fast_witness :
    query_sparql ⟨"http://primary/sparql?", true⟩ ["http://p1", "http://p2"]
      (fun e => if e = "http://p2/sparql?" then .error "status 500"
                else .ok [[("subject", "s1")]])
      = .error "Endpoint not responding" := by
  apply query_sparql_fail_fast _ _ _ "http://p2/sparql?" "status 500" rfl
  · show "http://p2/sparql?" ∈ endpointsOf _ _
    simp [endpointsOf]
  · simp

/-- `functools.lru_cache(maxsize=32)` on `memoized_query_sparql`
(`query.py`): the cache state is the list of cached query strings in
most-recently-used-first order.  A hit moves the key to the front; a miss
inserts the key at the front, evicting the last (least-recently-used) key
when the cache already holds 32 entries. -/
def lruStep (cache : List String) (q : String) : List String :=
  if q ∈ cache then q :: cache.erase q
  else if cache.length = 32 then q :: cache.dropLast
  else q :: cache

/-- The cache state after a sequence of `memoized_query_sparql` calls,
starting from the empty cache. -/
def lruRun (queries : List String) : List String :=
  queries.foldl lruStep []

theorem lruStep_invariant (c : List String) (q : String)
    (h : c.Nodup ∧ c.length ≤ 32) :
    (lruStep c q).Nodup ∧ (lruStep c q).length ≤ 32 := by
  unfold lruStep
  by_cases hmem : q ∈ c
  · rw [if_pos hmem]
    constructor
    · exact List.Nodup.cons (h.1.not_mem_erase) (h.1.erase q)
    · have := List.length_erase_of_mem hmem
      simp only [List.length_cons, this]
      omega
  · rw [if_neg hmem]
    by_cases hfull : c.length = 32
    · rw [if_pos hfull]
      constructor
      · refine List.Nodup.cons ?_ (h.1.sublist (List.dropLast_sublist c))
        intro hq
        exact hmem ((List.dropLast_sublist c).mem hq)
      · simp only [List.length_cons, List.length_dropLast, hfull]
        omega
    · rw [if_neg hfull]
      constructor
      · exact List.Nodup.cons hmem h.1
      · simp only [List.length_cons]
        omega

theorem lruRun_invariant (qs : List String) :
    (lruRun qs).Nodup ∧ (lruRun qs).length ≤ 32 := by
  have general : ∀ (l : List String) (c : List String),
      c.Nodup ∧ c.length ≤ 32 →
      (l.foldl lruStep c).Nodup ∧ (l.foldl lruStep c).length ≤ 32 := by
    intro l
    induction l with
    | nil => intro c hc; exact hc
    | cons hd tl ih =>
      intro c hc
      exact ih (lruStep c hd) (lruStep_invariant c hd hc)
  exact general qs [] ⟨List.nodup_nil, by simp⟩

/-- C4: the memoized-query cache never holds more than 32 entries after
any sequence of calls, and when a distinct 33rd query hits a full cache,
the least-recently-used entry (the last in recency order) is the one
evicted. -/
theorem memoized_query_sparql_cache_bound (qs : List String) (q : String)
    (hlen : (lruRun qs).length = 32) (hq : q ∉ lruRun qs) :
    (∀ qs₂ : List String, (lruRun qs₂).length ≤ 32)
    ∧ lruStep (lruRun qs) q = q :: (lruRun qs).dropLast
    ∧ ∀ lru, (lruRun qs).getLast? = some lru → lru ∉ lruStep (lruRun qs) q := by
  refine ⟨fun qs₂ => (lruRun_invariant qs₂).2, ?_, ?_⟩
  · unfold lruStep
    rw [if_neg hq, if_pos hlen]
  · intro lru hlru
    have hne : lruRun qs ≠ [] := by
      intro hnil
      rw [hnil] at hlru
      simp at hlru
    have hlast : (lruRun qs).getLast hne = lru := by
      rw [List.getLast_eq_iff_getLast?_eq_some]
      exact hlru
    have hsplit : (lruRun qs).dropLast ++ [lru] = lruRun qs := by
      rw [← hlast]
      exact List.dropLast_append_getLast hne
    have hnodup : (lruRun qs).Nodup := (lruRun_invariant qs).1
    have hlru_not_dl : lru ∉ (lruRun qs).dropLast := by
      intro hin
      have : ¬ (lruRun qs).Nodup := by
        rw [← hsplit]
        intro hnd
        have := List.disjoint_of_nodup_append hnd
        exact this hin (List.mem_singleton_self lru)
      exact this hnodup
    have hlru_ne_q : lru ≠ q := by
      intro hEq
      apply hq
      rw [← hEq]
      rw [← hsplit]
      exact List.mem_append_right _ (List.mem_singleton_self lru)
    unfold lruStep
    rw [if_neg hq, if_pos hlen]
    intro hmem
    rcases List.mem_cons.mp hmem with hEq | hin
    · exact hlru_ne_q hEq
    · exact hlru_not_dl hin

/-- The 32 distinct query strings used by the C4 witness. -/
def cacheDemoQueries : List String :=
  ["a01", "a02", "a03", "a04", "a05", "a06", "a07", "a08",
   "a09", "a10", "a11", "a12", "a13", "a14", "a15", "a16",
   "a17", "a18", "a19", "a20", "a21", "a22", "a23", "a24",
   "a25", "a26", "a27", "a28", "a29", "a30", "a31", "a32"]

/-- Witness for C4: after 32 distinct queries the cache is full; a 33rd
distinct query evicts exactly the least-recently-used entry `a01`. -/
theorem memoized_query_sparql_cache_bound_witness :
    lruStep (lruRun cacheDemoQueries) "a33"
      = "a33" :: (lruRun cacheDemoQueries).dropLast
    ∧ "a01" ∉ lruStep (lruRun cacheDemoQueries) "a33" := by
  have h := memoized_query_sparql_cache_bound cacheDemoQueries "a33"
    (by decide) (by decide)
  exact ⟨h.2.1, h.2.2 "a01" (by decide)⟩

/-- Witness for C2: a two-row list whose rows hold the same pairs in
different key order collapses to one canonical representative, and
deduplicating again changes nothing. -/
theorem deduplicate_results_spec_witness :
    (deduplicate_results [[("b", "2"), ("a", "1")], [("a", "1"), ("b", "2")]]).Nodup
    ∧ canon [("b", "2"), ("a", "1")]
        ∈ deduplicate_results [[("b", "2"), ("a", "1")], [("a", "1"), ("b", "2")]]
    ∧ deduplicate_results
        (deduplicate_results [[("b", "2"), ("a", "1")], [("a", "1"), ("b", "2")]])
      = deduplicate_results [[("b", "2"), ("a", "1")], [("a", "1"), ("b", "2")]] := by
  have h := deduplicate_results_spec [[("b", "2"), ("a", "1")], [("a", "1"), ("b", "2")]]
  exact ⟨h.1, h.2.1 [("b", "2"), ("a", "1")] (by simp), h.2.2.2.2⟩

end Query

namespace SequenceSearch

/-- `sequencesearch.py`: the vsearch binary selected on the linux
platform. -/
def vsearch_binary_filename : String := "usearch/vsearch_linux"

/-- `sequencesearch.py`, module level: the mutable default flag dict for
global (approximate) search. -/
def globalFlagsInit : List (String × String) :=
  [("maxaccepts", "50"), ("id", "0.8"), ("iddef", "2"),
   ("maxrejects", "0"), ("maxseqlength", "5000"), ("minseqlength", "20")]

/-- `sequencesearch.py`, module level: `exactFlags = {}`. -/
def exactFlagsInit : List (String × String) := []

/-- The module-level mutable state of `sequencesearch.py`: the two flag
dicts that `add_global_flags` / `add_exact_flags` update in place. -/
structure FlagState where
  globalFlags : List (String × String)
  exactFlags : List (String × String)

/-- The state of the flag dicts when the module is first loaded. -/
def initialFlagState : FlagState := ⟨globalFlagsInit, exactFlagsInit⟩

/-- `sequencesearch.py`, `append_flags_to_args`: append `--flag value` for
every entry of the flag dict, in dict order. -/
def append_flags_to_args (argsList : List String)
    (flags : List (String × String)) : List String :=
  flags.foldl (fun args kv => args ++ ["--" ++ kv.1, kv.2]) argsList

/-- The common loop body of `add_global_flags` and `add_exact_flags`
(`sequencesearch.py`): for every caller flag, overwrite the entry in the
default dict only when the key is already present there. -/
def mergeFlags (userFlags d : List (String × String)) : List (String × String) :=
  userFlags.foldl
    (fun d kv => if kv.1 ∈ dictKeys d then dictSet d kv.1 kv.2 else d) d

/-- `sequencesearch.py`, `add_global_flags`, acting on the global flag
dict passed explicitly. -/
def add_global_flags (userFlags globalFlags : List (String × String)) :
    List (String × String) :=
  mergeFlags userFlags globalFlags

/-- `sequencesearch.py`, `add_exact_flags`, acting on the exact flag dict
passed explicitly. -/
def add_exact_flags (userFlags exactFlags : List (String × String)) :
    List (String × String) :=
  mergeFlags userFlags exactFlags

/-- `sequencesearch.py`, `run_vsearch_global`: the argument list of the
global-alignment invocation (`fileName[:-4]` is `String.dropRight 4`). -/
def run_vsearch_global (fileName : String)
    (globalFlags : List (String × String)) : List String :=
  append_flags_to_args
    [vsearch_binary_filename, "--usearch_global", fileName, "--db",
     "usearch/sequences.fsa", "--uc", fileName.dropRight 4 ++ ".uc",
     "--uc_allhits"] globalFlags

/-- `sequencesearch.py`, `run_vsearch_exact`: the argument list of the
exact-search invocation. -/
def run_vsearch_exact (fileName : String)
    (exactFlags : List (String × String)) : List String :=
  append_flags_to_args
    [vsearch_binary_filename, "--search_exact", fileName, "--db",
     "usearch/sequences.fsa", "--uc", fileName.dropRight 4 ++ ".uc",
     "--uc_allhits"] exactFlags

/-- `sequencesearch.py`, `sequence_search`: route on the presence of the
`search_exact` key, merging the caller flags into the corresponding
module-level dict first; returns the tool argument list of the invocation
that runs, together with the updated module state. -/
def sequence_search (userFlags : List (String × String)) (fileName : String)
    (st : FlagState) : List String × FlagState :=
  if "search_exact" ∈ dictKeys userFlags then
    let ex := add_exact_flags userFlags st.exactFlags
    (run_vsearch_exact fileName ex, ⟨st.globalFlags, ex⟩)
  else
    let gl := add_global_flags userFlags st.globalFlags
    (run_vsearch_global fileName gl, ⟨gl, st.exactFlags⟩)

/-- The module state after a sequence of `sequence_search` calls. -/
def runSearches : List (List (String × String) × String) → FlagState → FlagState
  | [], st => st
  | (uf, fn) :: rest, st => runSearches rest (sequence_search uf fn st).2

theorem dictLookup_dictSet {β : Type} (d : List (String × β)) (k : String)
    (v : β) (k₂ : String) :
    dictLookup (dictSet d k v) k₂ = if k₂ = k then some v else dictLookup d k₂ := by
  induction d with
  | nil =>
    show (if k = k₂ then some v else none) = if k₂ = k then some v else none
    by_cases h : k = k₂
    · rw [if_pos h, if_pos h.symm]
    · rw [if_neg h, if_neg (fun hh => h hh.symm)]
  | cons hd tl ih =>
    obtain ⟨k₁, v₁⟩ := hd
    simp only [dictSet]
    by_cases h1 : k₁ = k
    · rw [if_pos h1]
      show (if k₁ = k₂ then some v else dictLookup tl k₂)
        = if k₂ = k then some v
          else if k₁ = k₂ then some v₁ else dictLookup tl k₂
      by_cases h2 : k₁ = k₂
      · rw [if_pos h2, if_pos (h2.symm.trans h1)]
      · rw [if_neg h2, if_neg (show ¬ k₂ = k from fun hh => h2 (h1.trans hh.symm)),
          if_neg h2]
    · rw [if_neg h1]
      show (if k₁ = k₂ then some v₁ else dictLookup (dictSet tl k v) k₂)
        = if k₂ = k then some v
          else if k₁ = k₂ then some v₁ else dictLookup tl k₂
      by_cases h2 : k₁ = k₂
      · rw [if_pos h2, if_neg (show ¬ k₂ = k from fun hh => h1 (h2.trans hh)),
          if_pos h2]
      · rw [if_neg h2, ih]
        by_cases h3 : k₂ = k
        · rw [if_pos h3, if_pos h3]
        · rw [if_neg h3, if_neg h3, if_neg h2]

theorem dictKeys_dictSet {β : Type} (d : List (String × β)) (k : String)
    (v : β) (h : k ∈ dictKeys d) : dictKeys (dictSet d k v) = dictKeys d := by
  induction d with
  | nil => cases h
  | cons hd tl ih =>
    obtain ⟨k₁, v₁⟩ := hd
    simp only [dictSet]
    by_cases h1 : k₁ = k
    · rw [if_pos h1]
      rfl
    · rw [if_neg h1]
      have hm : k ∈ k₁ :: dictKeys tl := h
      have htl : k ∈ dictKeys tl := by
        rcases List.mem_cons.mp hm with hEq | htl
        · exact absurd hEq.symm h1
        · exact htl
      show k₁ :: dictKeys (dictSet tl k v) = k₁ :: dictKeys tl
      rw [ih htl]

theorem dictLookup_eq_none_iff {β : Type} (d : List (String × β)) (k : String) :
    dictLookup d k = none ↔ k ∉ dictKeys d := by
  induction d with
  | nil => simp [dictLookup, dictKeys]
  | cons hd tl ih =>
    obtain ⟨k₁, v₁⟩ := hd
    show (if k₁ = k then some v₁ else dictLookup tl k) = none
      ↔ k ∉ dictKeys ((k₁, v₁) :: tl)
    have hmem : k ∈ dictKeys ((k₁, v₁) :: tl) ↔ k = k₁ ∨ k ∈ dictKeys tl := by
      show k ∈ k₁ :: dictKeys tl ↔ _
      exact List.mem_cons
    by_cases h1 : k₁ = k
    · rw [if_pos h1]
      constructor
      · intro hsome; cases hsome
      · intro hnk
        exact absurd (hmem.mpr (Or.inl h1.symm)) hnk
    · rw [if_neg h1, ih]
      constructor
      · intro hnk hk
        rcases hmem.mp hk with hEq | htl
        · exact h1 hEq.symm
        · exact hnk htl
      · intro hnk htl
        exact hnk (hmem.mpr (Or.inr htl))

theorem mergeFlags_keys (user d : List (String × String)) :
    dictKeys (mergeFlags user d) = dictKeys d := by
  induction user generalizing d with
  | nil => rfl
  | cons kv us ih =>
    show dictKeys (mergeFlags us
      (if kv.1 ∈ dictKeys d then dictSet d kv.1 kv.2 else d)) = dictKeys d
    by_cases h : kv.1 ∈ dictKeys d
    · rw [if_pos h, ih, dictKeys_dictSet d kv.1 kv.2 h]
    · rw [if_neg h, ih]

theorem mergeFlags_lookup (user d : List (String × String)) (k : String)
    (hU : (user.map Prod.fst).Nodup) :
    dictLookup (mergeFlags user d) k =
      match dictLookup d k, dictLookup user k with
      | some _, some v => some v
      | some w, none => some w
      | none, _ => none := by
  induction user generalizing d with
  | nil =>
    show dictLookup d k = _
    cases dictLookup d k <;> rfl
  | cons kv us ih =>
    obtain ⟨ku, vu⟩ := kv
    have hku : ku ∉ us.map Prod.fst := (List.nodup_cons.mp hU).1
    have hus : (us.map Prod.fst).Nodup := (List.nodup_cons.mp hU).2
    show dictLookup (mergeFlags us
      (if ku ∈ dictKeys d then dictSet d ku vu else d)) k = _
    by_cases hk : k = ku
    · subst hk
      have husk : dictLookup us k = none := by
        rw [dictLookup_eq_none_iff]
        intro hmem
        exact hku (by simpa [dictKeys] using hmem)
      by_cases hd : k ∈ dictKeys d
      · rw [if_pos hd, ih _ hus]
        have hset : dictLookup (dictSet d k vu) k = some vu := by
          rw [dictLookup_dictSet]; simp
        rw [hset, husk]
        have : ∃ w, dictLookup d k = some w := by
          cases h : dictLookup d k with
          | none => exact absurd ((dictLookup_eq_none_iff d k).mp h) (by simpa using hd)
          | some w => exact ⟨w, rfl⟩
        obtain ⟨w, hw⟩ := this
        rw [hw]
        simp [dictLookup]
      · rw [if_neg hd, ih _ hus]
        have hnone : dictLookup d k = none := (dictLookup_eq_none_iff d k).mpr hd
        rw [hnone, husk]
    · have hcons : dictLookup ((ku, vu) :: us) k = dictLookup us k := by
        show (if ku = k then some vu else dictLookup us k) = dictLookup us k
        rw [if_neg (fun hh => hk hh.symm)]
      rw [hcons]
      by_cases hd : ku ∈ dictKeys d
      · rw [if_pos hd, ih _ hus]
        have : dictLookup (dictSet d ku vu) k = dictLookup d k := by
          rw [dictLookup_dictSet, if_neg hk]
        rw [this]
      · rw [if_neg hd, ih _ hus]

theorem mergeFlags_empty (user : List (String × String)) :
    mergeFlags user [] = [] := by
  induction user with
  | nil => rfl
  | cons kv us ih =>
    show mergeFlags us
      (if kv.1 ∈ dictKeys ([] : List (String × String)) then _ else []) = []
    have hnm : kv.1 ∉ dictKeys ([] : List (String × String)) :=
      List.not_mem_nil kv.1
    rw [if_neg hnm]
    exact ih

theorem append_flags_to_args_eq (args : List String)
    (flags : List (String × String)) :
    append_flags_to_args args flags
      = args ++ flags.foldr (fun kv acc => ("--" ++ kv.1) :: kv.2 :: acc) [] := by
  induction flags generalizing args with
  | nil => simp [append_flags_to_args]
  | cons kv rest ih =>
    show append_flags_to_args (args ++ ["--" ++ kv.1, kv.2]) rest = _
    rw [ih]
    simp

/-- C8: merging caller flags into a default flag dict (global or exact)
changes only keys already present there: the key list is unchanged, a key
absent from the default dict yields no entry (it is dropped, not
inserted), and keys the caller does not mention keep their default
values. -/
theorem add_flags_override_scoping (user d : List (String × String))
    (hU : (user.map Prod.fst).Nodup) :
    dictKeys (add_global_flags user d) = dictKeys d
    ∧ dictKeys (add_exact_flags user d) = dictKeys d
    ∧ (∀ k, k ∉ dictKeys d →
        dictLookup (add_global_flags user d) k = none
        ∧ dictLookup (add_exact_flags user d) k = none)
    ∧ (∀ k, k ∉ dictKeys user →
        dictLookup (add_global_flags user d) k = dictLookup d k
        ∧ dictLookup (add_exact_flags user d) k = dictLookup d k) := by
  have hnone : ∀ k, k ∉ dictKeys d → dictLookup (mergeFlags user d) k = none := by
    intro k hk
    rw [dictLookup_eq_none_iff, mergeFlags_keys]
    exact hk
  have huser : ∀ k, k ∉ dictKeys user →
      dictLookup (mergeFlags user d) k = dictLookup d k := by
    intro k hk
    rw [mergeFlags_lookup user d k hU,
      (dictLookup_eq_none_iff user k).mpr hk]
    cases dictLookup d k <;> rfl
  exact ⟨mergeFlags_keys user d, mergeFlags_keys user d,
    fun k hk => ⟨hnone k hk, hnone k hk⟩,
    fun k hk => ⟨huser k hk, huser k hk⟩⟩

/-- Witness for C8: overriding an unknown key `bogus` leaves the global
default set untouched — same keys, no `bogus` entry, `id` unchanged. -/
theorem add_flags_override_scoping_witness :
    dictKeys (add_global_flags [("bogus", "1")] globalFlagsInit)
      = dictKeys globalFlagsInit
    ∧ dictLookup (add_global_flags [("bogus", "1")] globalFlagsInit) "bogus" = none
    ∧ dictLookup (add_global_flags [("bogus", "1")] globalFlagsInit) "id"
        = some "0.8" := by
  have h := add_flags_override_scoping [("bogus", "1")] globalFlagsInit (by decide)
  refine ⟨h.1, (h.2.2.1 "bogus" (by decide)).1, ?_⟩
  rw [(h.2.2.2 "id" (by decide)).1]
  decide

/-- C7: with the module in its initial state, `sequence_search` runs the
exact-search invocation exactly when the caller flags contain
`search_exact`; otherwise it runs the global invocation, whose
`maxaccepts` value is the caller override when supplied and `50`
otherwise. -/
theorem sequence_search_mode_selection (userFlags : List (String × String))
    (fileName : String) (hU : (userFlags.map Prod.fst).Nodup) :
    ("search_exact" ∈ dictKeys userFlags →
      ((sequence_search userFlags fileName initialFlagState).1)[1]?
        = some "--search_exact")
    ∧ ("search_exact" ∉ dictKeys userFlags →
      ((sequence_search userFlags fileName initialFlagState).1)[1]?
          = some "--usearch_global"
      ∧ ((sequence_search userFlags fileName initialFlagState).1)[8]?
          = some "--maxaccepts"
      ∧ ((sequence_search userFlags fileName initialFlagState).1)[9]?
          = some ((dictLookup userFlags "maxaccepts").getD "50")) := by
  constructor
  · intro hx
    unfold sequence_search
    rw [if_pos hx]
    simp [run_vsearch_exact, append_flags_to_args_eq]
  · intro hx
    unfold sequence_search
    rw [if_neg hx]
    have hkeys : dictKeys (add_global_flags userFlags globalFlagsInit)
        = dictKeys globalFlagsInit := mergeFlags_keys _ _
    cases hgl : add_global_flags userFlags globalFlagsInit with
    | nil =>
      rw [hgl] at hkeys
      exact absurd hkeys (by decide)
    | cons p rest =>
      obtain ⟨a, b⟩ := p
      rw [hgl] at hkeys
      have hfst : a :: dictKeys rest = dictKeys globalFlagsInit := hkeys
      have ha : a = "maxaccepts" := (List.cons.injEq _ _ _ _ ▸ hfst).1
      have hb : b = (dictLookup userFlags "maxaccepts").getD "50" := by
        have hlook := mergeFlags_lookup userFlags globalFlagsInit "maxaccepts" hU
        have hgl₂ : mergeFlags userFlags globalFlagsInit = (a, b) :: rest := hgl
        rw [hgl₂] at hlook
        have hhead : dictLookup ((a, b) :: rest) "maxaccepts" = some b := by
          show (if a = "maxaccepts" then some b else dictLookup rest "maxaccepts")
            = some b
          rw [if_pos ha]
        rw [hhead] at hlook
        have hg : dictLookup globalFlagsInit "maxaccepts" = some "50" := by decide
        rw [hg] at hlook
        cases hu : dictLookup userFlags "maxaccepts" with
        | none =>
          rw [hu] at hlook
          simpa using hlook
        | some v =>
          rw [hu] at hlook
          simpa using hlook
      show ((run_vsearch_global fileName
          (add_global_flags userFlags initialFlagState.globalFlags))[1]?
            = some "--usearch_global")
        ∧ _ ∧ _
      have hstate : initialFlagState.globalFlags = globalFlagsInit := rfl
      rw [hstate, hgl]
      refine ⟨?_, ?_, ?_⟩
      · simp [run_vsearch_global, append_flags_to_args_eq]
      · simp [run_vsearch_global, append_flags_to_args_eq, ha]
      · simp [run_vsearch_global, append_flags_to_args_eq, hb]

/-- Witness for C7: a flag map without `search_exact` routes to the
global invocation with `maxaccepts` still `50`; a flag map with
`search_exact` routes to the exact invocation. -/
theorem sequence_search_mode_selection_witness :
    ((sequence_search [("id", "0.9")] "query.fsa" initialFlagState).1)[1]?
        = some "--usearch_global"
    ∧ ((sequence_search [("id", "0.9")] "query.fsa" initialFlagState).1)[9]?
        = some "50"
    ∧ ((sequence_search [("search_exact", "")] "query.fsa" initialFlagState).1)[1]?
        = some "--search_exact" := by
  have h1 := sequence_search_mode_selection [("id", "0.9")] "query.fsa" (by decide)
  have h2 := sequence_search_mode_selection [("search_exact", "")] "query.fsa"
    (by decide)
  refine ⟨(h1.2 (by decide)).1, ?_, h2.1 (by decide)⟩
  rw [(h1.2 (by decide)).2.2]
  decide

theorem runSearches_exactFlags :
    ∀ (calls : List (List (String × String) × String)) (st : FlagState),
    st.exactFlags = [] → (runSearches calls st).exactFlags = [] := by
  intro calls
  induction calls with
  | nil => intro st h; exact h
  | cons c rest ih =>
    obtain ⟨uf, fn⟩ := c
    intro st h
    show (runSearches rest (sequence_search uf fn st).2).exactFlags = []
    apply ih
    unfold sequence_search
    by_cases hx : "search_exact" ∈ dictKeys uf
    · rw [if_pos hx]
      show add_exact_flags uf st.exactFlags = []
      rw [h]
      exact mergeFlags_empty uf
    · rw [if_neg hx]
      exact h

/-- C10: the exact flag dict starts empty and the merge can never add a
key to it, so after any sequence of prior `sequence_search` calls, an
exact search runs with exactly the fixed base arguments and nothing
appended. -/
theorem run_vsearch_exact_fixed_args
    (calls : List (List (String × String) × String))
    (userFlags : List (String × String)) (fileName : String)
    (hx : "search_exact" ∈ dictKeys userFlags) :
    (sequence_search userFlags fileName (runSearches calls initialFlagState)).1
      = [vsearch_binary_filename, "--search_exact", fileName, "--db",
         "usearch/sequences.fsa", "--uc", fileName.dropRight 4 ++ ".uc",
         "--uc_allhits"] := by
  have hex : (runSearches calls initialFlagState).exactFlags = [] :=
    runSearches_exactFlags calls initialFlagState rfl
  unfold sequence_search
  rw [if_pos hx]
  show run_vsearch_exact fileName
    (add_exact_flags userFlags (runSearches calls initialFlagState).exactFlags) = _
  rw [hex]
  show run_vsearch_exact fileName (mergeFlags userFlags []) = _
  rw [mergeFlags_empty]
  rfl

/-- Witness for C10: even after an earlier global search that overrode a
flag, and with extra caller flags, the exact invocation is the fixed base
argument list. -/
theorem run_vsearch_exact_fixed_args_witness :
    (sequence_search [("search_exact", ""), ("maxaccepts", "99")] "query.fsa"
        (runSearches [([("id", "0.9")], "other.fsa")] initialFlagState)).1
      = [vsearch_binary_filename, "--search_exact", "query.fsa", "--db",
         "usearch/sequences.fsa", "--uc", "query.uc", "--uc_allhits"] := by
  have h := run_vsearch_exact_fixed_args [([("id", "0.9")], "other.fsa")]
    [("search_exact", ""), ("maxaccepts", "99")] "query.fsa" (by decide)
  rw [h]
  decide

end SequenceSearch

namespace Cluster

/-- The numeric value of a digit string (most significant first). -/
def digitsVal (cs : List Char) : Nat :=
  cs.foldl (fun n c => n * 10 + (c.toNat - 48)) 0

/-- Python `float(...)` restricted to the decimal literals that occur in
`.uc` identity fields: optional sign, digits, optional fraction
(`90.0`, `85`, `-0.5`, `90.`, `.5`).  Exact rational value; the identity
percentages written by the tool have at most one fractional digit, so the
rational model coincides with the IEEE-double arithmetic of the source on
every value the claims touch.  Returns `none` where `float()` raises. -/
def pyFloat (s : String) : Option ℚ :=
  let cs := s.toList
  let signed : ℚ × List Char :=
    match cs with
    | '-' :: rest => (-1, rest)
    | '+' :: rest => (1, rest)
    | _ => (1, cs)
  let sign := signed.1
  let body := signed.2
  let intPart := body.takeWhile Char.isDigit
  let rest := body.dropWhile Char.isDigit
  match rest with
  | [] =>
    if intPart = [] then none
    else some (sign * (digitsVal intPart : ℚ))
  | '.' :: frac =>
    if frac.all Char.isDigit ∧ (intPart ≠ [] ∨ frac ≠ []) then
      some (sign * ((digitsVal intPart : ℚ)
        + (digitsVal frac : ℚ) / (10 : ℚ) ^ frac.length))
    else none
  | _ => none

/-- `cluster.py`, `analyze_uclust`, the `for line in lines` loop over the
whitespace-split report lines, carrying `total_parts`, `hits` and
`total_identity`.  `none` models the exceptions Python raises on a line
with no fields, a missing field 3 on an `H` line, or an unparsable
identity value.  (The source compares `line[0] is 'H'`; for the
single-character tokens produced by `split()` CPython interns the string,
so the identity test coincides with value equality, which is what is
modelled.) -/
def analyze_uclust_loop :
    List (List String) → Nat → Nat → ℚ → Option (Nat × Nat × ℚ)
  | [], total_parts, hits, total_identity =>
    some (total_parts, hits, total_identity)
  | line :: rest, total_parts, hits, total_identity =>
    match line.head? with
    | none => none
    | some record_type =>
      if record_type = "H" ∨ record_type = "S" then
        if record_type = "H" then
          match line.get? 3 with
          | none => none
          | some f =>
            match pyFloat f with
            | none => none
            | some v =>
              analyze_uclust_loop rest (total_parts + 1) (hits + 1)
                (total_identity + v)
        else analyze_uclust_loop rest (total_parts + 1) hits total_identity
      else analyze_uclust_loop rest total_parts hits total_identity

/-- `cluster.py`, `analyze_uclust`: run the tally loop over the report
from zeroed counters; the result is `(total_parts, hits, total_identity)`. -/
def analyze_uclust (lines : List (List String)) : Option (Nat × Nat × ℚ) :=
  analyze_uclust_loop lines 0 0 0

/-- `cluster.py`, `analyze_uclust`, the final `if hits > 0` log line:
the mean hit identity `total_identity / hits`. -/
def average_hit_identity (lines : List (List String)) : Option ℚ :=
  (analyze_uclust lines).bind
    (fun r => if 0 < r.2.1 then some (r.2.2 / (r.2.1 : ℚ)) else none)

/-- The per-line contribution to the identity sum: field 3 of an `H`
line, parsed. -/
def hContribution (l : List String) : Option ℚ :=
  if l.head? = some "H" then (l.get? 3).bind pyFloat else none

theorem analyze_uclust_loop_spec :
    ∀ (lines : List (List String)) (tp₀ h₀ : Nat) (t₀ : ℚ)
      (tp hits : Nat) (tid : ℚ),
    analyze_uclust_loop lines tp₀ h₀ t₀ = some (tp, hits, tid) →
    tp = tp₀ + lines.countP
        (fun l => l.head? == some "H" || l.head? == some "S")
    ∧ hits = h₀ + lines.countP (fun l => l.head? == some "H")
    ∧ tid = t₀ + (lines.filterMap hContribution).sum := by
  intro lines
  induction lines with
  | nil =>
    intro tp₀ h₀ t₀ tp hits tid h
    simp only [analyze_uclust_loop, Option.some.injEq, Prod.mk.injEq] at h
    obtain ⟨rfl, rfl, rfl⟩ := h
    simp
  | cons line rest ih =>
    intro tp₀ h₀ t₀ tp hits tid h
    cases hhead : line.head? with
    | none =>
      simp only [analyze_uclust_loop, hhead] at h
      cases h
    | some record_type =>
      simp only [analyze_uclust_loop, hhead] at h
      by_cases hHS : record_type = "H" ∨ record_type = "S"
      · rw [if_pos hHS] at h
        by_cases hH : record_type = "H"
        · rw [if_pos hH] at h
          cases hf : line.get? 3 with
          | none =>
            simp only [hf] at h
            cases h
          | some f =>
            simp only [hf] at h
            cases hv : pyFloat f with
            | none =>
              simp only [hv] at h
              cases h
            | some v =>
              simp only [hv] at h
              obtain ⟨e1, e2, e3⟩ := ih _ _ _ _ _ _ h
              subst hH
              refine ⟨?_, ?_, ?_⟩
              · rw [e1, List.countP_cons]
                simp [hhead]
                omega
              · rw [e2, List.countP_cons]
                simp [hhead]
                omega
              · rw [e3, List.filterMap_cons]
                have hc : hContribution line = some v := by
                  unfold hContribution
                  rw [if_pos hhead, hf]
                  exact hv
                rw [hc]
                simp
                ring
        · rw [if_neg hH] at h
          obtain ⟨e1, e2, e3⟩ := ih _ _ _ _ _ _ h
          refine ⟨?_, ?_, ?_⟩
          · rw [e1, List.countP_cons]
            have : record_type = "S" := hHS.resolve_left hH
            subst this
            simp [hhead]
            omega
          · rw [e2, List.countP_cons]
            simp [hhead, hH]
          · rw [e3, List.filterMap_cons]
            have hc : hContribution line = none := by
              simp [hContribution, hhead, hH]
            rw [hc]
      · rw [if_neg hHS] at h
        obtain ⟨e1, e2, e3⟩ := ih _ _ _ _ _ _ h
        push_neg at hHS
        refine ⟨?_, ?_, ?_⟩
        · rw [e1, List.countP_cons]
          simp [hhead, hHS.1, hHS.2]
        · rw [e2, List.countP_cons]
          simp [hhead, hHS.1]
        · rw [e3, List.filterMap_cons]
          have hc : hContribution line = none := by
            simp [hContribution, hhead, hHS.1]
          rw [hc]

/-- C6: whenever the summarize loop completes, `total_parts` counts the
lines whose first field is `H` or `S`, `hits` counts the `H` lines,
`total_identity` is the sum of the parsed field-3 identities of the `H`
lines, and the logged mean is `total_identity / hits`. -/
theorem analyze_uclust_spec (lines : List (List String))
    (tp hits : Nat) (tid : ℚ)
    (h : analyze_uclust lines = some (tp, hits, tid)) :
    tp = lines.countP (fun l => l.head? == some "H" || l.head? == some "S")
    ∧ hits = lines.countP (fun l => l.head? == some "H")
    ∧ tid = (lines.filterMap hContribution).sum
    ∧ (0 < hits →
        average_hit_identity lines
          = some ((lines.filterMap hContribution).sum / (hits : ℚ))) := by
  obtain ⟨e1, e2, e3⟩ := analyze_uclust_loop_spec lines 0 0 0 tp hits tid h
  have e3' : tid = (lines.filterMap hContribution).sum := by simpa using e3
  refine ⟨by simpa using e1, by simpa using e2, e3', ?_⟩
  intro hpos
  unfold average_hit_identity
  rw [h]
  show (if 0 < hits then some (tid / (hits : ℚ)) else none)
    = some ((lines.filterMap hContribution).sum / (hits : ℚ))
  rw [if_pos hpos, e3']

/-- The three-line report of the C6 witness: two hits with identities
90.0 and 80.0 plus one seed line. -/
def demoReport : List (List String) :=
  [["H", "0", "20", "90.0", "+", "0", "0", "x", "a", "b"],
   ["H", "0", "20", "80.0", "+", "0", "0", "x", "c", "b"],
   ["S", "1", "20", "*", "*", "*", "*", "*", "b", "*"]]

theorem pyFloat_90 : pyFloat "90.0" = some 90 := by
  have h : pyFloat "90.0"
      = some ((1 : ℚ) * (((90 : Nat) : ℚ) + ((0 : Nat) : ℚ) / (10 : ℚ) ^ (1 : Nat))) := rfl
  rw [h]
  norm_num

theorem pyFloat_80 : pyFloat "80.0" = some 80 := by
  have h : pyFloat "80.0"
      = some ((1 : ℚ) * (((80 : Nat) : ℚ) + ((0 : Nat) : ℚ) / (10 : ℚ) ^ (1 : Nat))) := rfl
  rw [h]
  norm_num

/-- Witness for C6: a report with two `H` lines of identities 90.0 and
80.0 and one `S` line yields total parts 3, hits 2 and mean identity
85. -/
theorem analyze_uclust_spec_witness :
    analyze_uclust demoReport = some (3, 2, 170)
    ∧ average_hit_identity demoReport = some 85 := by
  have h : analyze_uclust demoReport = some (3, 2, 170) := by
    unfold analyze_uclust demoReport
    simp only [analyze_uclust_loop, List.head?, List.get?, pyFloat_90, pyFloat_80]
    norm_num
    intro hcontra
    exact absurd hcontra (by decide)
  have hs := analyze_uclust_spec demoReport 3 2 170 h
  refine ⟨h, ?_⟩
  rw [hs.2.2.2 (by norm_num), ← hs.2.2.1]
  norm_num

/-- `cluster.py`, `uclust2clusters`, first loop: build `cluster2parts`, a
dict from cluster id (field 1) to the set of member part ids (field 8) of
the `H`/`S` lines, creating an empty set on first sight of a cluster id.
`none` models the IndexError on a line with too few fields. -/
def uclust2clusters_pass1 :
    List (List String) → List (String × List String)
    → Option (List (String × List String))
  | [], cluster2parts => some cluster2parts
  | line :: rest, cluster2parts =>
    match line.head? with
    | none => none
    | some t =>
      if t = "H" ∨ t = "S" then
        match line.get? 8, line.get? 1 with
        | some part, some cluster =>
          let d := if cluster ∈ dictKeys cluster2parts then cluster2parts
                   else cluster2parts ++ [(cluster, [])]
          uclust2clusters_pass1 rest
            (dictSet d cluster (setAdd ((dictLookup d cluster).getD []) part))
        | _, _ => none
      else uclust2clusters_pass1 rest cluster2parts

/-- `cluster.py`, `uclust2clusters`, inner loop of the second pass:
`for part in parts: clusters[part] = parts.difference({part})`.  `parts`
is passed twice so the difference is always taken against the full member
set while the recursion walks the members. -/
def assignParts (parts : List String) :
    List String → List (String × List String) → List (String × List String)
  | [], clusters => clusters
  | p :: ps, clusters => assignParts parts ps (dictSet clusters p (setDiff parts p))

/-- `cluster.py`, `uclust2clusters`, outer loop of the second pass:
`for cluster in cluster2parts`, in dict insertion order. -/
def clusters_of_cluster2parts :
    List (String × List String) → List (String × List String)
    → List (String × List String)
  | [], clusters => clusters
  | (_, parts) :: rest, clusters =>
    clusters_of_cluster2parts rest (assignParts parts parts clusters)

/-- `cluster.py`, `uclust2clusters`: both passes over the `.uc` report. -/
def uclust2clusters (lines : List (List String)) :
    Option (List (String × List String)) :=
  (uclust2clusters_pass1 lines []).map
    (fun cluster2parts => clusters_of_cluster2parts cluster2parts [])

/-- The cluster map is symmetric: whenever `b` is in the cluster set of
entry `p`, the map has a set for `b` containing `p`'s key. -/
def symmetricClusters (m : List (String × List String)) : Prop :=
  ∀ p ∈ m, ∀ b ∈ p.2, ∃ s, dictLookup m b = some s ∧ p.1 ∈ s

/-- The cluster map is irreflexive: no key appears in its own set. -/
def irreflexiveClusters (m : List (String × List String)) : Prop :=
  ∀ p ∈ m, p.1 ∉ p.2

theorem not_mem_setDiff (s : List String) (x : String) : x ∉ setDiff s x := by
  intro hmem
  have := List.mem_filter.mp hmem
  simp at this

theorem mem_setDiff_iff (s : List String) (x y : String) :
    y ∈ setDiff s x ↔ y ∈ s ∧ y ≠ x := by
  unfold setDiff
  rw [List.mem_filter]
  simp

theorem mem_dictSet {β : Type} (d : List (String × β)) (k : String) (v : β)
    (q : String × β) : q ∈ dictSet d k v → q ∈ d ∨ q = (k, v) := by
  induction d with
  | nil =>
    intro h
    simp [dictSet] at h
    exact Or.inr h
  | cons hd tl ih =>
    obtain ⟨k₁, v₁⟩ := hd
    intro h
    simp only [dictSet] at h
    by_cases h1 : k₁ = k
    · rw [if_pos h1] at h
      rcases List.mem_cons.mp h with hEq | htl
      · right
        rw [hEq, h1]
      · left
        exact List.mem_cons_of_mem _ htl
    · rw [if_neg h1] at h
      rcases List.mem_cons.mp h with hEq | htl
      · left
        rw [hEq]
        exact List.mem_cons_self _ _
      · rcases ih htl with hin | hEq
        · left
          exact List.mem_cons_of_mem _ hin
        · right
          exact hEq

/-- Lookup through `assignParts`: a part in the pending list gets the
full set minus itself; others are untouched. -/
theorem assignParts_lookup (parts : List String) :
    ∀ (pending : List String) (clusters : List (String × List String)) (q : String),
    dictLookup (assignParts parts pending clusters) q
      = if q ∈ pending then some (setDiff parts q) else dictLookup clusters q := by
  intro pending
  induction pending with
  | nil =>
    intro clusters q
    rw [if_neg (List.not_mem_nil q)]
    rfl
  | cons p ps ih =>
    intro clusters q
    show dictLookup (assignParts parts ps (dictSet clusters p (setDiff parts p))) q = _
    rw [ih, SequenceSearch.dictLookup_dictSet]
    by_cases hps : q ∈ ps
    · rw [if_pos hps, if_pos (List.mem_cons_of_mem p hps)]
    · rw [if_neg hps]
      by_cases hqp : q = p
      · rw [if_pos hqp, if_pos (by rw [hqp]; exact List.mem_cons_self p ps), hqp]
      · rw [if_neg hqp, if_neg (by
          intro hmem
          rcases List.mem_cons.mp hmem with hEq | hin
          · exact hqp hEq
          · exact hps hin)]

/-- The member set of the last cluster (in dict order) whose set holds
`q`, if any: the set that determines `clusters[q]` after the second
pass. -/
def lastCluster : List (String × List String) → String → Option (List String)
  | [], _ => none
  | (_, parts) :: rest, q =>
    match lastCluster rest q with
    | some s => some s
    | none => if q ∈ parts then some parts else none

theorem clusters_of_cluster2parts_lookup :
    ∀ (c2p : List (String × List String))
      (clusters : List (String × List String)) (q : String),
    dictLookup (clusters_of_cluster2parts c2p clusters) q
      = match lastCluster c2p q with
        | some s => some (setDiff s q)
        | none => dictLookup clusters q := by
  intro c2p
  induction c2p with
  | nil => intro clusters q; rfl
  | cons hd rest ih =>
    obtain ⟨c, parts⟩ := hd
    intro clusters q
    show dictLookup (clusters_of_cluster2parts rest (assignParts parts parts clusters)) q = _
    rw [ih, assignParts_lookup]
    show _ = (match (match lastCluster rest q with
      | some s => some s
      | none => if q ∈ parts then some parts else none) with
      | some s => some (setDiff s q)
      | none => dictLookup clusters q)
    cases lastCluster rest q with
    | some s => rfl
    | none =>
      by_cases hq : q ∈ parts
      · rw [if_pos hq, if_pos hq]
      · rw [if_neg hq, if_neg hq]

theorem lastCluster_spec (q : String) :
    ∀ (c2p : List (String × List String)) (s : List String),
    lastCluster c2p q = some s → q ∈ s ∧ ∃ c, (c, s) ∈ c2p := by
  intro c2p
  induction c2p with
  | nil => intro s h; cases h
  | cons hd rest ih =>
    obtain ⟨c, parts⟩ := hd
    intro s h
    show q ∈ s ∧ ∃ c₂, (c₂, s) ∈ (c, parts) :: rest
    simp only [lastCluster] at h
    cases hrest : lastCluster rest q with
    | some s₂ =>
      rw [hrest] at h
      injection h with h
      subst h
      obtain ⟨hq, c₂, hmem⟩ := ih s₂ hrest
      exact ⟨hq, c₂, List.mem_cons_of_mem _ hmem⟩
    | none =>
      rw [hrest] at h
      by_cases hq : q ∈ parts
      · rw [if_pos hq] at h
        injection h with h
        subst h
        exact ⟨hq, c, List.mem_cons_self _ _⟩
      · rw [if_neg hq] at h
        cases h

theorem lastCluster_isSome_of_mem (q : String) :
    ∀ (c2p : List (String × List String)) (c : String) (s : List String),
    (c, s) ∈ c2p → q ∈ s → ∃ s₂, lastCluster c2p q = some s₂ := by
  intro c2p
  induction c2p with
  | nil => intro c s h _; cases h
  | cons hd rest ih =>
    obtain ⟨c₁, parts⟩ := hd
    intro c s hmem hq
    simp only [lastCluster]
    rcases List.mem_cons.mp hmem with hEq | htl
    · cases hrest : lastCluster rest q with
      | some s₂ => exact ⟨s₂, rfl⟩
      | none =>
        have hqp : q ∈ parts := by
          have : s = parts := congrArg Prod.snd hEq
          rw [← this]
          exact hq
        rw [if_pos hqp]
        exact ⟨parts, rfl⟩
    · obtain ⟨s₂, hs₂⟩ := ih c s htl hq
      rw [hs₂]
      exact ⟨s₂, rfl⟩

theorem mem_dictKeys_dictSet {β : Type} (d : List (String × β)) (k : String)
    (v : β) (x : String) :
    x ∈ dictKeys (dictSet d k v) → x ∈ dictKeys d ∨ x = k := by
  intro h
  rcases List.mem_map.mp h with ⟨q, hq, hx⟩
  rcases mem_dictSet d k v q hq with hin | hEq
  · left
    rw [← hx]
    exact List.mem_map_of_mem Prod.fst hin
  · right
    rw [← hx, hEq]

theorem dictKeys_dictSet_nodup {β : Type} (d : List (String × β)) (k : String)
    (v : β) (h : (dictKeys d).Nodup) : (dictKeys (dictSet d k v)).Nodup := by
  induction d with
  | nil => simp [dictSet, dictKeys]
  | cons hd tl ih =>
    obtain ⟨k₁, v₁⟩ := hd
    have h₁ : k₁ ∉ dictKeys tl := (List.nodup_cons.mp h).1
    have h₂ : (dictKeys tl).Nodup := (List.nodup_cons.mp h).2
    simp only [dictSet]
    by_cases hk : k₁ = k
    · rw [if_pos hk]
      exact h
    · rw [if_neg hk]
      show (k₁ :: dictKeys (dictSet tl k v)).Nodup
      rw [List.nodup_cons]
      refine ⟨?_, ih h₂⟩
      intro hmem
      rcases mem_dictKeys_dictSet tl k v k₁ hmem with hin | hEq
      · exact h₁ hin
      · exact hk hEq

theorem assignParts_keys_nodup (parts : List String) :
    ∀ (pending : List String) (clusters : List (String × List String)),
    (dictKeys clusters).Nodup →
    (dictKeys (assignParts parts pending clusters)).Nodup := by
  intro pending
  induction pending with
  | nil => intro clusters h; exact h
  | cons p ps ih =>
    intro clusters h
    exact ih _ (dictKeys_dictSet_nodup clusters p (setDiff parts p) h)

theorem clusters_of_keys_nodup :
    ∀ (c2p clusters : List (String × List String)),
    (dictKeys clusters).Nodup →
    (dictKeys (clusters_of_cluster2parts c2p clusters)).Nodup := by
  intro c2p
  induction c2p with
  | nil => intro clusters h; exact h
  | cons hd rest ih =>
    obtain ⟨c, parts⟩ := hd
    intro clusters h
    exact ih _ (assignParts_keys_nodup parts parts clusters h)

theorem dictLookup_of_mem {β : Type} :
    ∀ (d : List (String × β)), (dictKeys d).Nodup →
    ∀ (k : String) (v : β), (k, v) ∈ d → dictLookup d k = some v := by
  intro d
  induction d with
  | nil => intro _ k v h; cases h
  | cons hd tl ih =>
    obtain ⟨k₁, v₁⟩ := hd
    intro hnd k v hmem
    show (if k₁ = k then some v₁ else dictLookup tl k) = some v
    rcases List.mem_cons.mp hmem with hEq | htl
    · have hk : k₁ = k := (congrArg Prod.fst hEq).symm
      have hv : v₁ = v := (congrArg Prod.snd hEq).symm
      rw [if_pos hk, hv]
    · have h₁ : k₁ ∉ dictKeys tl := (List.nodup_cons.mp hnd).1
      have hk : ¬ k₁ = k := by
        intro hEq
        apply h₁
        rw [hEq]
        exact List.mem_map_of_mem Prod.fst htl
      rw [if_neg hk]
      exact ih (List.nodup_cons.mp hnd).2 k v htl

theorem assignParts_irrefl (parts : List String) :
    ∀ (pending : List String) (clusters : List (String × List String)),
    (∀ p ∈ clusters, p.1 ∉ p.2) →
    ∀ p ∈ assignParts parts pending clusters, p.1 ∉ p.2 := by
  intro pending
  induction pending with
  | nil => intro clusters h; exact h
  | cons q qs ih =>
    intro clusters h
    apply ih
    intro p hp
    rcases mem_dictSet clusters q (setDiff parts q) p hp with hin | hEq
    · exact h p hin
    · rw [hEq]
      exact not_mem_setDiff parts q

theorem clusters_of_irrefl :
    ∀ (c2p clusters : List (String × List String)),
    (∀ p ∈ clusters, p.1 ∉ p.2) →
    ∀ p ∈ clusters_of_cluster2parts c2p clusters, p.1 ∉ p.2 := by
  intro c2p
  induction c2p with
  | nil => intro clusters h; exact h
  | cons hd rest ih =>
    obtain ⟨c, parts⟩ := hd
    intro clusters h
    exact ih _ (assignParts_irrefl parts parts clusters h)

/-- C5 (amended): the cluster map built by the second pass is always
irreflexive, and it is symmetric whenever no part id belongs to the
member sets of two different clusters of the report (true of every `.uc`
file in which each part occurs once; a part re-assigned to a second
cluster overwrites its earlier entry and breaks symmetry, see the
counterexample). -/
theorem uclust2clusters_cluster_map (lines : List (List String))
    (c2p : List (String × List String))
    (h1 : uclust2clusters_pass1 lines [] = some c2p) :
    uclust2clusters lines = some (clusters_of_cluster2parts c2p [])
    ∧ irreflexiveClusters (clusters_of_cluster2parts c2p [])
    ∧ ((∀ s₁ s₂, (∃ c₁, (c₁, s₁) ∈ c2p) → (∃ c₂, (c₂, s₂) ∈ c2p) →
          (∃ x, x ∈ s₁ ∧ x ∈ s₂) → s₁ = s₂) →
        symmetricClusters (clusters_of_cluster2parts c2p [])) := by
  refine ⟨?_, ?_, ?_⟩
  · unfold uclust2clusters
    rw [h1]
    rfl
  · intro p hp
    exact clusters_of_irrefl c2p [] (fun _ h => absurd h (List.not_mem_nil _)) p hp
  · intro hdisj p hp b hb
    obtain ⟨k, v⟩ := p
    have hnd : (dictKeys (clusters_of_cluster2parts c2p [])).Nodup :=
      clusters_of_keys_nodup c2p [] List.nodup_nil
    have hlk : dictLookup (clusters_of_cluster2parts c2p []) k = some v :=
      dictLookup_of_mem _ hnd k v hp
    rw [clusters_of_cluster2parts_lookup] at hlk
    cases hlast : lastCluster c2p k with
    | none =>
      rw [hlast] at hlk
      cases hlk
    | some s =>
      rw [hlast] at hlk
      injection hlk with hv
      have hbv : b ∈ setDiff s k := by rw [hv]; exact hb
      obtain ⟨hbs, hbk⟩ := (mem_setDiff_iff s k b).mp hbv
      obtain ⟨hks, c, hcs⟩ := lastCluster_spec k c2p s hlast
      obtain ⟨s₂, hs₂⟩ := lastCluster_isSome_of_mem b c2p c s hcs hbs
      obtain ⟨hbs₂, c₂, hc₂⟩ := lastCluster_spec b c2p s₂ hs₂
      have hseq : s = s₂ := hdisj s s₂ ⟨c, hcs⟩ ⟨c₂, hc₂⟩ ⟨b, hbs, hbs₂⟩
      refine ⟨setDiff s b, ?_, ?_⟩
      · rw [clusters_of_cluster2parts_lookup, hs₂, ← hseq]
      · exact (mem_setDiff_iff s b k).mpr ⟨hks, fun hEq => hbk hEq.symm⟩

/-- Counterexample for C5 as stated: a report assigning part `A` to
cluster 0 (with `B`) and then to cluster 1 overwrites the entry of `A`,
leaving `B ↦ {A}` but `A ↦ {}` — the map is not symmetric. -/
theorem uclust2clusters_symmetry_counterexample :
    uclust2clusters
        [["S", "0", "x", "x", "x", "x", "x", "x", "A"],
         ["H", "0", "x", "x", "x", "x", "x", "x", "B"],
         ["S", "1", "x", "x", "x", "x", "x", "x", "A"]]
      = some [("A", []), ("B", ["A"])]
    ∧ ¬ symmetricClusters [("A", []), ("B", ["A"])] := by
  constructor
  · rfl
  · intro hsym
    obtain ⟨s, hs, hmem⟩ := hsym ("B", ["A"]) (by simp) "A" (by simp)
    have hset : dictLookup [("A", ([] : List String)), ("B", ["A"])] "A"
        = some [] := rfl
    rw [hset] at hs
    injection hs with hs
    rw [← hs] at hmem
    cases hmem

/-- Witness for C5: the spec's own example — an `S` line for cluster
0/part `p1` and an `H` line for cluster 0/part `p2` — yields the map
`{p1: {p2}, p2: {p1}}`, which is symmetric and irreflexive. -/
theorem uclust2clusters_cluster_map_witness :
    uclust2clusters
        [["S", "0", "x", "x", "x", "x", "x", "x", "p1"],
         ["H", "0", "x", "90.0", "x", "x", "x", "x", "p2"]]
      = some [("p1", ["p2"]), ("p2", ["p1"])]
    ∧ symmetricClusters (clusters_of_cluster2parts [("0", ["p1", "p2"])] [])
    ∧ irreflexiveClusters (clusters_of_cluster2parts [("0", ["p1", "p2"])] []) := by
  have h1 : uclust2clusters_pass1
      [["S", "0", "x", "x", "x", "x", "x", "x", "p1"],
       ["H", "0", "x", "90.0", "x", "x", "x", "x", "p2"]] []
      = some [("0", ["p1", "p2"])] := rfl
  have h := uclust2clusters_cluster_map _ _ h1
  have hdisj : ∀ s₁ s₂ : List String,
      (∃ c₁, (c₁, s₁) ∈ [("0", ["p1", "p2"])]) →
      (∃ c₂, (c₂, s₂) ∈ [("0", ["p1", "p2"])]) →
      (∃ x, x ∈ s₁ ∧ x ∈ s₂) → s₁ = s₂ := by
    rintro s₁ s₂ ⟨c₁, hc₁⟩ ⟨c₂, hc₂⟩ _
    have e₁ : s₁ = ["p1", "p2"] := by
      simp only [List.mem_singleton, Prod.mk.injEq] at hc₁
      exact hc₁.2
    have e₂ : s₂ = ["p1", "p2"] := by
      simp only [List.mem_singleton, Prod.mk.injEq] at hc₂
      exact hc₂.2
    rw [e₁, e₂]
  refine ⟨?_, h.2.2 hdisj, h.2.1⟩
  rw [h.1]
  rfl

end Cluster

namespace Explorer

/-- The names bound at module level in `explorer.py`: its imports
(`import X` binds `X`; `from flask import request, jsonify` binds those
two names) and its own top-level definitions.  Note that `get_cron` is
not among them — the module imports `utils` as a whole and the GET branch
of `update_cron_tab` refers to a bare `get_cron` instead of
`utils.get_cron`. -/
def explorerModuleGlobals : List String :=
  ["traceback", "Flask", "request", "jsonify", "logging", "cluster",
   "pagerank", "index", "search", "utils", "query", "sequencesearch",
   "requests", "log", "app", "startup", "handle_error", "info", "config",
   "update", "incremental_update", "incremental_remove",
   "incremental_remove_collection", "sparql_search_endpoint",
   "search_by_string", "sequence_search", "update_cron_tab"]

/-- `explorer.py`, `update_cron_tab`, GET branch: the handler body
evaluates `get_cron()`.  Python resolves the bare name against the
module globals (the builtins hold no `get_cron` either); an unresolved
name raises NameError, which the registered `handle_error` converts into
a 500 response carrying the error text; on success the handler would
return the persisted schedule with status 200. -/
def update_cron_tab_get (schedule : String) : Nat × String :=
  if "get_cron" ∈ explorerModuleGlobals then (200, schedule)
  else (500, "name get_cron is not defined")

/-- C9 (evaluation at the failing input): `get_cron` is not a module
global of `explorer.py`, so a GET to `/cron` raises NameError and yields
a 500 error envelope instead of the 200/plain-text schedule the spec
promises. -/
theorem update_cron_tab_get_name_error :
    "get_cron" ∉ explorerModuleGlobals
    ∧ update_cron_tab_get "0 0 * * *"
        = (500, "name get_cron is not defined") := by
  constructor
  · decide
  · rfl

end Explorer

end SBOL
